import Mathlib

/-!
# OSDI labs: ramfs with an XOR transform (lab10) and a read-ahead generator (lab9)

A shallow embedding of `lab10/file-mmu.c`, `lab10/inode.c` and
`lab9/request_builder.c`, followed by the properties proved about it.

Conventions of the embedding:

* user memory is a map from byte addresses to byte values (`Mem`); the
  hypothesis `ByteMem` says that every cell holds a value below 256;
* `*(int *)p` is a 32-bit access in the byte order of the x86 target of the
  labs (little endian): the byte at `p` is the least significant one;
* `generic_file_aio_write` and `generic_file_aio_read` are kernel functions
  outside the repository: the handlers take them as arguments, and
  `store_aio_write` / `store_aio_read` are the plain byte store used where a
  property speaks about the data that comes back.
-/

namespace OSDI

/-! ## Definitions: `lab10/file-mmu.c` -/

/-- Byte-addressed user memory. -/
abbrev Mem := Nat → Nat

/-- Every cell of the memory holds a byte. -/
def ByteMem (m : Mem) : Prop := ∀ a, m a < 256

/-- The C `struct iovec`: start address and length of one buffer segment. -/
structure iovec where
  iov_base : Nat
  iov_len : Nat
deriving DecidableEq, Repr

/-- The value of `*(int *)a`: four bytes starting at `a`, least significant first. -/
def load_int (m : Mem) (a : Nat) : Nat :=
  m a + 256 * m (a + 1) + 65536 * m (a + 2) + 16777216 * m (a + 3)

/-- The assignment `*(int *)a = v`: the four bytes of `v` go to `a .. a+3`. -/
def store_int (m : Mem) (a v : Nat) : Mem := fun x =>
  if x = a then v % 256
  else if x = a + 1 then v / 256 % 256
  else if x = a + 2 then v / 65536 % 256
  else if x = a + 3 then v / 16777216 % 256
  else m x

/-- The statement `*(int *)a ^= 0x25` (the bit pattern of the 32-bit int). -/
def xor_int (m : Mem) (a : Nat) : Mem :=
  store_int m a ((load_int m a ^^^ 0x25) % 2 ^ 32)

/-- The inner loop `for (iov_count = 0; iov_count < iov[seg].iov_len; iov_count++)`
over one segment. -/
def xor_segment (m : Mem) (s : iovec) : Mem :=
  (List.range s.iov_len).foldl (fun acc iov_count => xor_int acc (s.iov_base + iov_count)) m

/-- The outer loop `for (seg = 0; seg < nr_segs; seg++)`; the list holds the
`nr_segs` entries of the `iov` array. -/
def xor_loop (m : Mem) (iov : List iovec) : Mem :=
  iov.foldl xor_segment m

/-- Outcome of `my_aio_write`: user memory, file content, return value. -/
structure WriteResult where
  mem : Mem
  file : List Nat
  ret : Int

/-- Outcome of `my_aio_read`: user memory and return value. -/
structure ReadResult where
  mem : Mem
  ret : Int

/-- The handler `my_aio_write`: when `enable_encryption` is set the XOR loop
runs over the caller's segments in place, then the generic write is called on
the same `iov`. -/
def my_aio_write (enable_encryption : Bool)
    (generic_file_aio_write : Mem → List Nat → List iovec → Nat → List Nat × Int)
    (m : Mem) (file : List Nat) (iov : List iovec) (pos : Nat) : WriteResult :=
  let m1 := if enable_encryption then xor_loop m iov else m
  let r := generic_file_aio_write m1 file iov pos
  { mem := m1, file := r.1, ret := r.2 }

/-- The handler `my_aio_read`: the generic read fills the caller's segments,
then, when `enable_encryption` is set, the XOR loop runs over every segment in
full; the return value is the one of the generic read. -/
def my_aio_read (enable_encryption : Bool)
    (generic_file_aio_read : Mem → List Nat → List iovec → Nat → Mem × Int)
    (m : Mem) (file : List Nat) (iov : List iovec) (pos : Nat) : ReadResult :=
  if enable_encryption then
    let r := generic_file_aio_read m file iov pos
    { mem := xor_loop r.1 iov, ret := r.2 }
  else
    let r := generic_file_aio_read m file iov pos
    { mem := r.1, ret := r.2 }

/-! ### The plain byte store standing for the generic write and read -/

/-- The bytes of one segment, in address order. -/
def segment_bytes (m : Mem) (s : iovec) : List Nat :=
  (List.range s.iov_len).map (fun k => m (s.iov_base + k))

/-- The byte sequence an `iov` array denotes: its segments one after the other. -/
def gather (m : Mem) : List iovec → List Nat
  | [] => []
  | s :: rest => segment_bytes m s ++ gather m rest

/-- Sum of the segment lengths. -/
def total_len : List iovec → Nat
  | [] => 0
  | s :: rest => s.iov_len + total_len rest

/-- Copy `bs` to memory from address `base` on. -/
def write_bytes (m : Mem) (base : Nat) (bs : List Nat) : Mem := fun x =>
  if base ≤ x ∧ x < base + bs.length then bs.getD (x - base) 0 else m x

/-- Copy `bs` into the segments in order, each segment taking as many bytes as
it has room for, until `bs` is used up. -/
def scatter (m : Mem) : List iovec → List Nat → Mem
  | [], _ => m
  | s :: rest, bs => scatter (write_bytes m s.iov_base (bs.take s.iov_len)) rest (bs.drop s.iov_len)

/-- File content after storing `bs` at offset `pos`; a gap between the old end
and `pos` is zero-filled, and a zero-length write changes nothing. -/
def store_write (file : List Nat) (pos : Nat) (bs : List Nat) : List Nat :=
  if bs = [] then file
  else (file ++ List.replicate (pos - file.length) 0).take pos ++ bs ++ file.drop (pos + bs.length)

/-- Plain byte store for `generic_file_aio_write`: all gathered bytes are
stored at `pos` and their number is returned. -/
def store_aio_write (m : Mem) (file : List Nat) (iov : List iovec) (pos : Nat) : List Nat × Int :=
  (store_write file pos (gather m iov), ((gather m iov).length : Int))

/-- Plain byte store for `generic_file_aio_read`: the bytes of the file from
`pos` on, at most as many as the segments hold, are copied out and their number
is returned. -/
def store_aio_read (m : Mem) (file : List Nat) (iov : List iovec) (pos : Nat) : Mem × Int :=
  let bs := (file.drop pos).take (total_len iov)
  (scatter m iov bs, (bs.length : Int))

/-- The transform on byte sequences, `apply` of the specification: every byte
XOR 0x25. -/
def apply (b : List Nat) : List Nat := b.map (fun x => x ^^^ 0x25)

/-- Membership of an address in a segment. -/
def in_segment (s : iovec) (x : Nat) : Prop := s.iov_base ≤ x ∧ x < s.iov_base + s.iov_len

instance (s : iovec) (x : Nat) : Decidable (in_segment s x) := by
  unfold in_segment; infer_instance

/-- Number of segments of `iov` that contain the address `x`. -/
def cover : List iovec → Nat → Nat
  | [], _ => 0
  | s :: rest, x => (if in_segment s x then 1 else 0) + cover rest x

/-- Two segments share no address. -/
def seg_disjoint (s t : iovec) : Prop :=
  s.iov_base + s.iov_len ≤ t.iov_base ∨ t.iov_base + t.iov_len ≤ s.iov_base

/-- The segments of `iov` are pairwise non-overlapping. -/
def Disjoint_segs (iov : List iovec) : Prop := iov.Pairwise seg_disjoint

/-! ## Definitions: `lab10/inode.c`, the `flag` proc entry -/

/-- The macro `MAX_BUF_SIZE`. -/
def MAX_BUF_SIZE : Nat := 32

/-- The errno value `EFAULT`. -/
def EFAULT : Int := 14

/-- The errno value `EINVAL`. -/
def EINVAL : Int := 22

/-- The errno value `ENOSPC`. -/
def ENOSPC : Int := 28

/-- The two globals the proc handlers work on: the array `ram_buf` (as its
`MAX_BUF_SIZE` bytes) and the flag `enable_encryption`. -/
structure proc_state where
  ram_buf : List Nat
  enable_encryption : Bool
deriving DecidableEq, Repr

/-- State at module load: `ram_buf` is a zeroed static array and
`enable_encryption` is initialised to `false`. -/
def proc_start : proc_state :=
  { ram_buf := List.replicate MAX_BUF_SIZE 0, enable_encryption := false }

/-- A `copy_from_user` that succeeds: the first `n` bytes of the destination
are replaced by the first `n` bytes of the source, and 0 bytes are left
uncopied. -/
def user_copy (dst src : List Nat) (n : Nat) : List Nat × Nat :=
  (src.take n ++ dst.drop n, 0)

/-- The C library `strncmp` on byte strings; reading at the end of a list
yields the terminating NUL. -/
def strncmp : List Nat → List Nat → Nat → Int
  | _, _, 0 => 0
  | s, t, n + 1 =>
    if s.headD 0 ≠ t.headD 0 then (s.headD 0 : Int) - (t.headD 0 : Int)
    else if s.headD 0 = 0 then 0
    else strncmp s.tail t.tail n

/-- The handler `my_write_proc`; `buf` is the payload, its length is `count`.
The count is clipped to `MAX_BUF_SIZE`, that many bytes are copied into
`ram_buf`, and the flag is set from the first byte of `ram_buf`. The result is
the new state and the return value. -/
def my_write_proc (copy_from_user : List Nat → List Nat → Nat → List Nat × Nat)
    (st : proc_state) (buf : List Nat) : proc_state × Int :=
  let count := if buf.length > MAX_BUF_SIZE then MAX_BUF_SIZE else buf.length
  let r := copy_from_user st.ram_buf buf count
  if r.2 ≠ 0 then
    ({ st with ram_buf := r.1 }, -EFAULT)
  else
    ({ ram_buf := r.1, enable_encryption := (strncmp r.1 [49] 1 == 0) }, (count : Int))

/-- The characters `%s` prints for a byte string: those before the first NUL. -/
def c_string (l : List Nat) : List Nat := l.takeWhile (fun c => c ≠ 0)

/-- The handler `my_read_proc`: `sprintf(buf, "%s\n", ram_buf)`. The result is
the text written to `buf` and the returned length. `after` stands for the
bytes that follow `ram_buf` in memory, which `%s` runs into when the array
holds no NUL. -/
def my_read_proc (after : List Nat) (st : proc_state) : List Nat × Int :=
  let out := c_string (st.ram_buf ++ after) ++ [10]
  (out, (out.length : Int))

/-- A sequence of writes to the proc entry, first payload first. -/
def write_all (st : proc_state) : List (List Nat) → proc_state
  | [] => st
  | buf :: rest => write_all (my_write_proc user_copy st buf).1 rest

/-! ## Definitions: `lab10/inode.c`, mount options -/

/-- The macro `RAMFS_DEFAULT_MODE`. -/
def RAMFS_DEFAULT_MODE : Nat := 0o755

/-- The kernel constant `S_IALLUGO`. -/
def S_IALLUGO : Nat := 0o7777

/-- The C `struct ramfs_mount_opts`. -/
structure ramfs_mount_opts where
  mode : Nat
deriving DecidableEq, Repr

/-- The anonymous enum of option tokens. -/
inductive token where
  | Opt_mode
  | Opt_err
deriving DecidableEq, Repr

/-- The pieces of a string between its commas, empty pieces included. -/
def split_comma : List Char → List (List Char)
  | [] => [[]]
  | c :: cs =>
    if c = ',' then [] :: split_comma cs
    else
      match split_comma cs with
      | [] => [[c]]
      | p :: ps => (c :: p) :: ps

/-- The successive results of `strsep(&data, ",")` until it returns `NULL`:
none for a `NULL` string, otherwise the comma-separated items in order. -/
def strsep_tokens : Option (List Char) → List (List Char)
  | none => []
  | some s => split_comma s

/-- The body of the `while` loop of `ramfs_parse_options` over the items `p`.
`match_token` (with the table `tokens`) gives the token and `args[0]`;
`match_octal` gives the parsed number, or nothing when it fails. -/
def parse_items (match_token : List Char → token × List Char)
    (match_octal : List Char → Option Nat) :
    List (List Char) → ramfs_mount_opts → Int × ramfs_mount_opts
  | [], opts => (0, opts)
  | p :: rest, opts =>
    if p = [] then parse_items match_token match_octal rest opts
    else
      match (match_token p).1 with
      | token.Opt_mode =>
        match match_octal (match_token p).2 with
        | none => (-EINVAL, opts)
        | some option =>
          parse_items match_token match_octal rest { mode := (option &&& S_IALLUGO) % 65536 }
      | token.Opt_err => parse_items match_token match_octal rest opts

/-- The function `ramfs_parse_options`: the mode starts as
`RAMFS_DEFAULT_MODE`, then the items of `data` are processed. The result is
the return value and `*opts`. -/
def ramfs_parse_options (match_token : List Char → token × List Char)
    (match_octal : List Char → Option Nat) (data : Option (List Char)) :
    Int × ramfs_mount_opts :=
  parse_items match_token match_octal (strsep_tokens data) { mode := RAMFS_DEFAULT_MODE }

/-- The item begins with the literal text of the pattern `mode=%o`. -/
def begins_mode_eq : List Char → Bool
  | 'm' :: 'o' :: 'd' :: 'e' :: '=' :: _ => true
  | _ => false

/-- Octal digit test. -/
def is_octal (c : Char) : Bool := '0' ≤ c ∧ c ≤ '7'

/-- A matcher for the table `tokens` in the manner of the kernel's
`match_token`: `Opt_mode` for `mode=` followed by one or more octal digits
and nothing else, with the digits as `args[0]`; `Opt_err` otherwise. -/
def mode_token : List Char → token × List Char
  | 'm' :: 'o' :: 'd' :: 'e' :: '=' :: digits =>
    if digits ≠ [] ∧ digits.all is_octal then (token.Opt_mode, digits) else (token.Opt_err, [])
  | _ => (token.Opt_err, [])

/-- Value of a string of octal digits, in the manner of `match_octal`. -/
def octal_value (digits : List Char) : Option Nat :=
  if digits ≠ [] ∧ digits.all is_octal then
    some (digits.foldl (fun acc c => 8 * acc + (c.toNat - '0'.toNat)) 0)
  else none

/-! ## Definitions: `lab10/inode.c`, inode creation -/

/-- The kernel constant `S_IFMT`. -/
def S_IFMT : Nat := 0o170000

/-- The kernel constant `S_IFSOCK`. -/
def S_IFSOCK : Nat := 0o140000

/-- The kernel constant `S_IFLNK`. -/
def S_IFLNK : Nat := 0o120000

/-- The kernel constant `S_IFREG`. -/
def S_IFREG : Nat := 0o100000

/-- The kernel constant `S_IFBLK`. -/
def S_IFBLK : Nat := 0o060000

/-- The kernel constant `S_IFDIR`. -/
def S_IFDIR : Nat := 0o040000

/-- The kernel constant `S_IFCHR`. -/
def S_IFCHR : Nat := 0o020000

/-- The kernel constant `S_IFIFO`. -/
def S_IFIFO : Nat := 0o010000

/-- The kernel constant `S_ISGID`, the set-group-id bit. -/
def S_ISGID : Nat := 0o2000

/-- The kernel macro `S_ISDIR`. -/
def S_ISDIR (mode : Nat) : Bool := mode &&& S_IFMT == S_IFDIR

/-- The inode operation tables an inode can point to. -/
inductive inode_ops where
  | unset
  | ramfs_file_inode_operations
  | ramfs_dir_inode_operations
  | page_symlink_inode_operations
deriving DecidableEq, Repr

/-- The file operation tables an inode can point to. -/
inductive file_ops where
  | unset
  | ramfs_file_operations
  | simple_dir_operations
  | def_chr_fops
  | def_blk_fops
  | def_fifo_fops
  | bad_sock_fops
deriving DecidableEq, Repr

/-- The fields of `struct inode` the code reads or writes. `i_mode` has the
16-bit type `umode_t`. -/
structure inode where
  i_mode : Nat
  i_uid : Nat
  i_gid : Nat
  i_nlink : Nat
  i_rdev : Nat
  i_atime : Nat
  i_mtime : Nat
  i_ctime : Nat
  i_op : inode_ops
  i_fop : file_ops
deriving DecidableEq, Repr

/-- The kernel function `init_special_inode`, by its effect on the fields
above: the mode is stored and the file operations (and the device number, for
device nodes) follow the file type. -/
def init_special_inode (i : inode) (mode rdev : Nat) : inode :=
  let i := { i with i_mode := mode % 65536 }
  if mode % 65536 &&& S_IFMT = S_IFCHR then { i with i_fop := file_ops.def_chr_fops, i_rdev := rdev }
  else if mode % 65536 &&& S_IFMT = S_IFBLK then
    { i with i_fop := file_ops.def_blk_fops, i_rdev := rdev }
  else if mode % 65536 &&& S_IFMT = S_IFIFO then { i with i_fop := file_ops.def_fifo_fops }
  else if mode % 65536 &&& S_IFMT = S_IFSOCK then { i with i_fop := file_ops.bad_sock_fops }
  else i

/-- The function `ramfs_get_inode`. `fresh` is the result of `new_inode(sb)`
(nothing for `NULL`); `fsuid`, `fsgid` are `current_fsuid()`, `current_fsgid()`
and `now` is `CURRENT_TIME`. The settings of `i_mapping` are not part of the
embedding. -/
def ramfs_get_inode (fresh : Option inode) (fsuid fsgid now : Nat) (mode dev : Nat) :
    Option inode :=
  match fresh with
  | none => none
  | some i =>
    let i := { i with i_mode := mode % 65536, i_uid := fsuid, i_gid := fsgid,
                      i_atime := now, i_mtime := now, i_ctime := now }
    if mode &&& S_IFMT = S_IFREG then
      some { i with i_op := inode_ops.ramfs_file_inode_operations,
                    i_fop := file_ops.ramfs_file_operations }
    else if mode &&& S_IFMT = S_IFDIR then
      some { i with i_op := inode_ops.ramfs_dir_inode_operations,
                    i_fop := file_ops.simple_dir_operations,
                    i_nlink := i.i_nlink + 1 }
    else if mode &&& S_IFMT = S_IFLNK then
      some { i with i_op := inode_ops.page_symlink_inode_operations }
    else
      some (init_special_inode i mode dev)

/-- Outcome of `ramfs_mknod`: the return value, the parent directory and the
inode attached to the dentry (nothing when none was created). -/
structure mknod_result where
  error : Int
  dir : inode
  node : Option inode
deriving DecidableEq, Repr

/-- The function `ramfs_mknod`. -/
def ramfs_mknod (fresh : Option inode) (fsuid fsgid now : Nat) (dir : inode) (mode dev : Nat) :
    mknod_result :=
  match ramfs_get_inode fresh fsuid fsgid now mode dev with
  | none => { error := -ENOSPC, dir := dir, node := none }
  | some i =>
    let i :=
      if dir.i_mode &&& S_ISGID ≠ 0 then
        let i := { i with i_gid := dir.i_gid }
        if S_ISDIR mode then { i with i_mode := (i.i_mode ||| S_ISGID) % 65536 } else i
      else i
    { error := 0, dir := { dir with i_mtime := now, i_ctime := now }, node := some i }

/-- The function `ramfs_mkdir`. -/
def ramfs_mkdir (fresh : Option inode) (fsuid fsgid now : Nat) (dir : inode) (mode : Nat) :
    mknod_result :=
  let r := ramfs_mknod fresh fsuid fsgid now dir (mode ||| S_IFDIR) 0
  if r.error = 0 then { r with dir := { r.dir with i_nlink := r.dir.i_nlink + 1 } } else r

/-! ## Definitions: `lab9/request_builder.c` -/

/-- The errno value `EIO`. -/
def EIO : Int := 5

/-- The static `set_size`. -/
def set_size : Int := 512

/-- One call `__breadahead(bdev, block, size)` on the opened device. -/
structure breadahead where
  block : Int
  size : Int
deriving DecidableEq, Repr

/-- The four calls of a round taken with `isAscending` true, at loop index `i`. -/
def ascending_round (i : Int) : List breadahead :=
  [⟨(i * 2) * 512, set_size⟩, ⟨((i + 1) * 2) * 512, set_size⟩,
   ⟨((i + 2) * 2) * 512, set_size⟩, ⟨((i + 3) * 4) * 512, set_size⟩]

/-- The four calls of a round taken with `isAscending` false, at loop index `i`. -/
def other_round (i : Int) : List breadahead :=
  [⟨((i + 3) * 2 - 1) * 512, set_size⟩, ⟨((i + 2) * 2 - 1) * 512, set_size⟩,
   ⟨((i + 1) * 2 - 1) * 512, set_size⟩, ⟨(i * 4 - 1) * 512, set_size⟩]

/-- The loop `for (i = 0; i < 24; i += 4)` from index `i` on: the calls it
issues, in order. -/
def read_loop (i : Nat) (isAscending : Bool) : List breadahead :=
  if i < 24 then
    if isAscending then ascending_round i ++ read_loop (i + 4) false
    else other_round i ++ read_loop (i + 4) true
  else []
termination_by 24 - i

/-- The function `init_read`: `bdev_err` tells whether `open_by_devnum` gave an
error pointer and `blocksize_ret` is the result of `set_blocksize`. The result
is the return value and the calls of `__breadahead` in order. -/
def init_read (bdev_err : Bool) (blocksize_ret : Int) : Int × List breadahead :=
  if bdev_err then (- EIO, [])
  else if blocksize_ret ≠ 0 then (- EIO, [])
  else (0, read_loop 0 true)

/-! ## Theorems: `lab10/file-mmu.c` -/

theorem xor_low_byte (r a : Nat) (ha : a < 256) :
    (2 ^ 8 * r + a) ^^^ 0x25 = 2 ^ 8 * r + (a ^^^ 0x25) := by
  have hx : a ^^^ 0x25 < 2 ^ 8 := Nat.xor_lt_two_pow (by simpa using ha) (by decide)
  have ha8 : a < 2 ^ 8 := by simpa using ha
  apply Nat.eq_of_testBit_eq
  intro i
  rw [Nat.testBit_xor, Nat.testBit_mul_pow_two_add r ha8, Nat.testBit_mul_pow_two_add r hx]
  by_cases hi : i < 8
  · simp [hi]
  · have h37 : Nat.testBit 0x25 i = false := by
      apply Nat.testBit_lt_two_pow
      calc 0x25 < 2 ^ 8 := by decide
        _ ≤ 2 ^ i := Nat.pow_le_pow_right (by decide) (by omega)
    simp [hi, h37]

theorem byte_xor_lt (a : Nat) (ha : a < 256) : a ^^^ 0x25 < 256 := by
  have : a ^^^ 0x25 < 2 ^ 8 := Nat.xor_lt_two_pow (by simpa using ha) (by decide)
  simpa using this

theorem xor_int_eq (m : Mem) (hm : ByteMem m) (a : Nat) :
    xor_int m a = fun x => if x = a then m a ^^^ 0x25 else m x := by
  have h0 := hm a
  have h1 := hm (a + 1)
  have h2 := hm (a + 2)
  have h3 := hm (a + 3)
  have hb := byte_xor_lt (m a) h0
  have hl : load_int m a ^^^ 0x25
      = 2 ^ 8 * (m (a + 1) + 256 * m (a + 2) + 65536 * m (a + 3)) + (m a ^^^ 0x25) := by
    rw [← xor_low_byte _ _ h0]
    congr 1
    unfold load_int
    omega
  funext x
  unfold xor_int store_int
  rw [hl]
  by_cases hx0 : x = a
  · simp only [hx0, if_true]; omega
  · by_cases hx1 : x = a + 1
    · subst hx1; simp only [hx0, if_false, if_true]; omega
    · by_cases hx2 : x = a + 2
      · subst hx2; simp only [hx0, hx1, if_false, if_true]; omega
      · by_cases hx3 : x = a + 3
        · subst hx3; simp only [hx0, hx1, hx2, if_false, if_true]; omega
        · simp only [hx0, hx1, hx2, hx3, if_false]

theorem byteMem_xor_int (m : Mem) (hm : ByteMem m) (a : Nat) : ByteMem (xor_int m a) := by
  rw [xor_int_eq m hm a]
  intro x
  by_cases hx : x = a
  · simp only [hx, if_true]; exact byte_xor_lt _ (hm a)
  · simp only [hx, if_false]; exact hm x

theorem xor_range_fold (m : Mem) (hm : ByteMem m) (base n : Nat) :
    ByteMem ((List.range n).foldl (fun acc k => xor_int acc (base + k)) m) ∧
    (List.range n).foldl (fun acc k => xor_int acc (base + k)) m
      = fun x => if base ≤ x ∧ x < base + n then m x ^^^ 0x25 else m x := by
  induction n with
  | zero =>
    refine ⟨by simpa using hm, ?_⟩
    funext x
    have h0 : ¬ (base ≤ x ∧ x < base + 0) := by omega
    simp only [List.range_zero, List.foldl_nil, h0, if_false]
  | succ n ih =>
    obtain ⟨hb, he⟩ := ih
    rw [List.range_succ, List.foldl_append]
    simp only [List.foldl_cons, List.foldl_nil]
    refine ⟨byteMem_xor_int _ hb _, ?_⟩
    rw [xor_int_eq _ hb, he]
    funext x
    by_cases hx : x = base + n
    · subst hx
      have h1 : ¬ (base ≤ base + n ∧ base + n < base + n) := by omega
      have h2 : base ≤ base + n ∧ base + n < base + (n + 1) := by omega
      simp [h1, h2]
    · by_cases hin : base ≤ x ∧ x < base + n
      · have h2 : base ≤ x ∧ x < base + (n + 1) := by omega
        simp [hx, hin, h2]
      · have h2 : ¬ (base ≤ x ∧ x < base + (n + 1)) := by omega
        simp [hx, hin, h2]

theorem xor_segment_eq (m : Mem) (hm : ByteMem m) (s : iovec) :
    xor_segment m s = fun x => if in_segment s x then m x ^^^ 0x25 else m x :=
  (xor_range_fold m hm s.iov_base s.iov_len).2

theorem byteMem_xor_segment (m : Mem) (hm : ByteMem m) (s : iovec) :
    ByteMem (xor_segment m s) :=
  (xor_range_fold m hm s.iov_base s.iov_len).1

theorem xor_loop_cons (m : Mem) (s : iovec) (iov : List iovec) :
    xor_loop m (s :: iov) = xor_loop (xor_segment m s) iov := rfl

theorem byteMem_xor_loop (iov : List iovec) (m : Mem) (hm : ByteMem m) :
    ByteMem (xor_loop m iov) := by
  induction iov generalizing m with
  | nil => exact hm
  | cons s rest ih =>
    rw [xor_loop_cons]
    exact ih _ (byteMem_xor_segment m hm s)

theorem xor_loop_eq (iov : List iovec) (m : Mem) (hm : ByteMem m) (x : Nat) :
    xor_loop m iov x = if cover iov x % 2 = 1 then m x ^^^ 0x25 else m x := by
  induction iov generalizing m with
  | nil => simp [xor_loop, cover]
  | cons s rest ih =>
    rw [xor_loop_cons, ih _ (byteMem_xor_segment m hm s), xor_segment_eq m hm s]
    simp only [cover]
    by_cases hin : in_segment s x
    · by_cases hc : cover rest x % 2 = 1
      · have h2 : ¬ ((1 + cover rest x) % 2 = 1) := by omega
        simp only [hin, hc, h2, if_true, if_false]
        exact Nat.xor_cancel_right _ _
      · have h2 : (1 + cover rest x) % 2 = 1 := by omega
        simp only [hin, hc, h2, if_true, if_false]
    · simp only [hin, if_false, Nat.zero_add]

theorem not_in_of_disjoint (s t : iovec) (x : Nat) (hd : seg_disjoint s t)
    (hs : in_segment s x) : ¬ in_segment t x := by
  unfold seg_disjoint at hd
  unfold in_segment at hs ⊢
  omega

theorem cover_eq_zero (iov : List iovec) (x : Nat)
    (h : ∀ s ∈ iov, ¬ in_segment s x) : cover iov x = 0 := by
  induction iov with
  | nil => rfl
  | cons t rest ih =>
    have ht : ¬ in_segment t x := h t (List.mem_cons_self _ _)
    have hr : cover rest x = 0 := ih (fun s hs => h s (List.mem_cons_of_mem _ hs))
    simp only [cover, ht, if_false, hr]

theorem cover_eq_one (iov : List iovec) (hd : Disjoint_segs iov) (s : iovec) (hs : s ∈ iov)
    (x : Nat) (hx : in_segment s x) : cover iov x = 1 := by
  induction iov with
  | nil => cases hs
  | cons t rest ih =>
    unfold Disjoint_segs at hd
    rw [List.pairwise_cons] at hd
    obtain ⟨hhead, htail⟩ := hd
    rcases List.mem_cons.mp hs with heq | hmem
    · subst heq
      have hr : cover rest x = 0 :=
        cover_eq_zero rest x (fun u hu => not_in_of_disjoint s u x (hhead u hu) hx)
      simp only [cover, hx, if_true, hr]
    · have ht : ¬ in_segment t x := by
        intro hin
        exact not_in_of_disjoint t s x (hhead s hmem) hin hx
      have hr : cover rest x = 1 := ih htail hmem
      simp only [cover, ht, if_false, hr]

theorem segment_bytes_map (g : Nat → Nat) (m1 m2 : Mem) (s : iovec)
    (h : ∀ x, in_segment s x → m2 x = g (m1 x)) :
    segment_bytes m2 s = (segment_bytes m1 s).map g := by
  unfold segment_bytes
  rw [List.map_map]
  apply List.map_congr_left
  intro k hk
  have hk2 : k < s.iov_len := List.mem_range.mp hk
  have hin : in_segment s (s.iov_base + k) := by unfold in_segment; omega
  simpa using h _ hin

theorem gather_map (g : Nat → Nat) (m1 m2 : Mem) (iov : List iovec)
    (h : ∀ s ∈ iov, ∀ x, in_segment s x → m2 x = g (m1 x)) :
    gather m2 iov = (gather m1 iov).map g := by
  induction iov with
  | nil => rfl
  | cons t rest ih =>
    simp only [gather, List.map_append]
    rw [segment_bytes_map g m1 m2 t (h t (List.mem_cons_self _ _)),
      ih (fun s hs => h s (List.mem_cons_of_mem _ hs))]

theorem gather_xor_loop (m : Mem) (hm : ByteMem m) (iov : List iovec) (hd : Disjoint_segs iov) :
    gather (xor_loop m iov) iov = apply (gather m iov) := by
  unfold apply
  apply gather_map
  intro s hs x hx
  rw [xor_loop_eq iov m hm x, cover_eq_one iov hd s hs x hx]
  simp

theorem length_segment_bytes (m : Mem) (s : iovec) : (segment_bytes m s).length = s.iov_len := by
  simp [segment_bytes]

theorem length_gather (m : Mem) (iov : List iovec) : (gather m iov).length = total_len iov := by
  induction iov with
  | nil => rfl
  | cons t rest ih => simp [gather, total_len, length_segment_bytes, ih]

theorem gather_lt (m : Mem) (hm : ByteMem m) (iov : List iovec) :
    ∀ b ∈ gather m iov, b < 256 := by
  induction iov with
  | nil => intro b hb; cases hb
  | cons t rest ih =>
    intro b hb
    simp only [gather, List.mem_append] at hb
    rcases hb with h | h
    · unfold segment_bytes at h
      obtain ⟨k, _, hk⟩ := List.mem_map.mp h
      rw [← hk]; exact hm _
    · exact ih b h

theorem apply_lt (bs : List Nat) (h : ∀ b ∈ bs, b < 256) : ∀ b ∈ apply bs, b < 256 := by
  intro b hb
  unfold apply at hb
  obtain ⟨a, ha, hab⟩ := List.mem_map.mp hb
  rw [← hab]; exact byte_xor_lt a (h a ha)

theorem apply_apply (bs : List Nat) : apply (apply bs) = bs := by
  unfold apply
  rw [List.map_map]
  conv_rhs => rw [← List.map_id bs]
  apply List.map_congr_left
  intro a _
  simp [Nat.xor_cancel_right]

theorem byteMem_write_bytes (m : Mem) (hm : ByteMem m) (base : Nat) (bs : List Nat)
    (hbs : ∀ b ∈ bs, b < 256) : ByteMem (write_bytes m base bs) := by
  intro x
  unfold write_bytes
  by_cases hx : base ≤ x ∧ x < base + bs.length
  · simp only [hx, and_self, if_true]
    have hlt : x - base < bs.length := by omega
    rw [List.getD_eq_getElem _ _ hlt]
    exact hbs _ (List.getElem_mem _)
  · simp only [hx, if_false]; exact hm x

theorem byteMem_scatter (iov : List iovec) (m : Mem) (hm : ByteMem m) (bs : List Nat)
    (hbs : ∀ b ∈ bs, b < 256) : ByteMem (scatter m iov bs) := by
  induction iov generalizing m bs with
  | nil => exact hm
  | cons t rest ih =>
    simp only [scatter]
    apply ih
    · exact byteMem_write_bytes m hm _ _ (fun b hb => hbs b (List.mem_of_mem_take hb))
    · exact fun b hb => hbs b (List.mem_of_mem_drop hb)

theorem write_bytes_outside (m : Mem) (base : Nat) (bs : List Nat) (x : Nat)
    (hx : ¬ (base ≤ x ∧ x < base + bs.length)) : write_bytes m base bs x = m x := by
  unfold write_bytes
  simp only [hx, if_false]

theorem scatter_outside (iov : List iovec) (m : Mem) (bs : List Nat) (x : Nat)
    (h : ∀ s ∈ iov, ¬ in_segment s x) : scatter m iov bs x = m x := by
  induction iov generalizing m bs with
  | nil => rfl
  | cons t rest ih =>
    simp only [scatter]
    rw [ih _ _ (fun s hs => h s (List.mem_cons_of_mem _ hs))]
    apply write_bytes_outside
    have ht : ¬ in_segment t x := h t (List.mem_cons_self _ _)
    unfold in_segment at ht
    have hl : (bs.take t.iov_len).length ≤ t.iov_len := by
      rw [List.length_take]; exact Nat.min_le_left _ _
    omega

theorem segment_bytes_write_bytes (m : Mem) (s : iovec) (l : List Nat)
    (hl : l.length = s.iov_len) : segment_bytes (write_bytes m s.iov_base l) s = l := by
  apply List.ext_getElem
  · rw [length_segment_bytes, hl]
  · intro i h1 h2
    unfold segment_bytes
    rw [List.getElem_map, List.getElem_range]
    unfold write_bytes
    have hin : s.iov_base ≤ s.iov_base + i ∧ s.iov_base + i < s.iov_base + l.length := by omega
    simp only [hin, and_self, if_true]
    have hsub : s.iov_base + i - s.iov_base = i := by omega
    rw [hsub, List.getD_eq_getElem _ _ h2]

theorem segment_bytes_congr (m1 m2 : Mem) (s : iovec)
    (h : ∀ x, in_segment s x → m2 x = m1 x) : segment_bytes m2 s = segment_bytes m1 s := by
  have := segment_bytes_map id m1 m2 s (by simpa using h)
  simpa using this

theorem gather_scatter (iov : List iovec) (hd : Disjoint_segs iov) (m : Mem) (bs : List Nat)
    (hlen : bs.length = total_len iov) : gather (scatter m iov bs) iov = bs := by
  induction iov generalizing m bs with
  | nil =>
    simp only [total_len] at hlen
    simp only [gather]
    exact (List.length_eq_zero.mp hlen).symm
  | cons t rest ih =>
    unfold Disjoint_segs at hd
    rw [List.pairwise_cons] at hd
    obtain ⟨hhead, htail⟩ := hd
    simp only [total_len] at hlen
    simp only [scatter, gather]
    have htake : (bs.take t.iov_len).length = t.iov_len := by
      rw [List.length_take]; omega
    have hdrop : (bs.drop t.iov_len).length = total_len rest := by
      rw [List.length_drop]; omega
    rw [ih htail _ _ hdrop]
    have hseg : segment_bytes
        (scatter (write_bytes m t.iov_base (bs.take t.iov_len)) rest (bs.drop t.iov_len)) t
        = bs.take t.iov_len := by
      rw [segment_bytes_congr (write_bytes m t.iov_base (bs.take t.iov_len))]
      · exact segment_bytes_write_bytes m t _ htake
      · intro x hx
        exact scatter_outside rest _ _ x
          (fun u hu => not_in_of_disjoint t u x (hhead u hu) hx)
    rw [hseg, List.take_append_drop]

theorem store_read_write (file : List Nat) (pos : Nat) (bs : List Nat) :
    ((store_write file pos bs).drop pos).take bs.length = bs := by
  unfold store_write
  by_cases hb : bs = []
  · simp [hb]
  · simp only [hb, if_false]
    have hpre : ((file ++ List.replicate (pos - file.length) 0).take pos).length = pos := by
      rw [List.length_take, List.length_append, List.length_replicate]; omega
    rw [List.append_assoc, List.drop_left' hpre, List.take_left]

theorem store_read_after_write (m2 : Mem) (file : List Nat) (pos : Nat) (bs : List Nat)
    (iov_r : List iovec) (hlen : total_len iov_r = bs.length) :
    store_aio_read m2 (store_write file pos bs) iov_r pos = (scatter m2 iov_r bs, (bs.length : Int)) := by
  unfold store_aio_read
  simp only [hlen, store_read_write]

theorem xor_byte_ne (x : Nat) : x ^^^ 0x25 ≠ x := by
  intro h
  have h2 : x ^^^ (x ^^^ 0x25) = 0x25 := Nat.xor_cancel_left x 0x25
  rw [h, Nat.xor_self] at h2
  exact absurd h2 (by decide)

theorem apply_ne (b : List Nat) (hb : b ≠ []) : apply b ≠ b := by
  cases b with
  | nil => exact absurd rfl hb
  | cons x rest =>
    intro h
    unfold apply at h
    simp only [List.map_cons, List.cons.injEq] at h
    exact xor_byte_ne x h.1

/-! ### Properties of `my_aio_write` and `my_aio_read` -/

/-- C1 fails as stated when segments of one call overlap. With the flag set,
writing `b = [4, 5, 5, 6]` from the overlapping segments `(4, 2)` and `(5, 2)`
XORs the shared byte twice in place, the file receives `[33, 5, 5, 35]`, and
the read under the same flag delivers `[4, 32, 32, 6]`, not `b`. With the flag
clear, reading `b = [4, 5]` back into the overlapping segments `(8, 1)` and
`(8, 1)` leaves `[5, 5]` in them, not `b`. -/
theorem write_read_overlapping :
    gather (fun a => a % 256) [⟨4, 2⟩, ⟨5, 2⟩] = [4, 5, 5, 6] ∧
    (my_aio_write true store_aio_write (fun a => a % 256) [] [⟨4, 2⟩, ⟨5, 2⟩] 0).file
      = [33, 5, 5, 35] ∧
    gather (my_aio_read true store_aio_read (fun a => a % 256)
        (my_aio_write true store_aio_write (fun a => a % 256) [] [⟨4, 2⟩, ⟨5, 2⟩] 0).file
        [⟨16, 4⟩] 0).mem [⟨16, 4⟩]
      = [4, 32, 32, 6] ∧
    gather (my_aio_read true store_aio_read (fun a => a % 256)
        (my_aio_write true store_aio_write (fun a => a % 256) [] [⟨4, 2⟩, ⟨5, 2⟩] 0).file
        [⟨16, 4⟩] 0).mem [⟨16, 4⟩]
      ≠ gather (fun a => a % 256) [⟨4, 2⟩, ⟨5, 2⟩] ∧
    gather (fun a => a % 256) [⟨4, 2⟩] = [4, 5] ∧
    gather (my_aio_read false store_aio_read (fun a => a % 256)
        (my_aio_write false store_aio_write (fun a => a % 256) [] [⟨4, 2⟩] 0).file
        [⟨8, 1⟩, ⟨8, 1⟩] 0).mem [⟨8, 1⟩, ⟨8, 1⟩]
      = [5, 5] ∧
    gather (my_aio_read false store_aio_read (fun a => a % 256)
        (my_aio_write false store_aio_write (fun a => a % 256) [] [⟨4, 2⟩] 0).file
        [⟨8, 1⟩, ⟨8, 1⟩] 0).mem [⟨8, 1⟩, ⟨8, 1⟩]
      ≠ gather (fun a => a % 256) [⟨4, 2⟩] := by
  decide

/-- C1 (amended): for every byte sequence `b` in the caller's segments, every
offset and either value of the flag, where the write segments do not overlap
one another when the flag is set and the read segments do not overlap one
another: a `my_aio_write` followed by a `my_aio_read` of the same byte range
under the same flag (over the plain byte store) returns the full count and
delivers exactly the bytes that were handed to the write. -/
theorem write_read_roundtrip (flag : Bool) (m : Mem) (hm : ByteMem m) (file : List Nat)
    (iov_w : List iovec) (hdw : flag = true → Disjoint_segs iov_w) (pos : Nat)
    (m2 : Mem) (hm2 : ByteMem m2) (iov_r : List iovec) (hdr : Disjoint_segs iov_r)
    (hlen : total_len iov_r = total_len iov_w) :
    (my_aio_read flag store_aio_read m2
        (my_aio_write flag store_aio_write m file iov_w pos).file iov_r pos).ret
      = ((gather m iov_w).length : Int) ∧
    gather (my_aio_read flag store_aio_read m2
        (my_aio_write flag store_aio_write m file iov_w pos).file iov_r pos).mem iov_r
      = gather m iov_w := by
  cases flag with
  | false =>
    have hl : total_len iov_r = (gather m iov_w).length := by rw [length_gather, hlen]
    simp only [my_aio_write, my_aio_read, store_aio_write, Bool.false_eq_true, if_false]
    rw [store_read_after_write m2 file pos _ iov_r hl]
    exact ⟨rfl, gather_scatter iov_r hdr m2 _ hl.symm⟩
  | true =>
    have hg : gather (xor_loop m iov_w) iov_w = apply (gather m iov_w) :=
      gather_xor_loop m hm iov_w (hdw rfl)
    have hl : total_len iov_r = (apply (gather m iov_w)).length := by
      rw [← hg, length_gather, hlen]
    have hla : (apply (gather m iov_w)).length = (gather m iov_w).length := by
      simp [apply]
    simp only [my_aio_write, my_aio_read, store_aio_write, if_true, hg]
    rw [store_read_after_write m2 file pos _ iov_r hl]
    refine ⟨by simp only [hla], ?_⟩
    have hb : ByteMem (scatter m2 iov_r (apply (gather m iov_w))) :=
      byteMem_scatter iov_r m2 hm2 _ (apply_lt _ (gather_lt m hm iov_w))
    simp only []
    rw [gather_xor_loop _ hb iov_r hdr, gather_scatter iov_r hdr m2 _ hl.symm, apply_apply]

theorem byteMem_mod : ByteMem (fun a => a % 256) :=
  fun a => Nat.mod_lt a (by decide)

theorem write_read_roundtrip_witness :
    ByteMem (fun a => a % 256) ∧ (true = true → Disjoint_segs [⟨16, 2⟩, ⟨32, 3⟩]) ∧
    Disjoint_segs [⟨64, 5⟩] ∧ total_len [⟨64, 5⟩] = total_len [⟨16, 2⟩, ⟨32, 3⟩] ∧
    ((my_aio_read true store_aio_read (fun a => a % 256)
        (my_aio_write true store_aio_write (fun a => a % 256) [1, 2] [⟨16, 2⟩, ⟨32, 3⟩] 4).file
        [⟨64, 5⟩] 4).ret
      = ((gather (fun a => a % 256) [⟨16, 2⟩, ⟨32, 3⟩]).length : Int) ∧
    gather (my_aio_read true store_aio_read (fun a => a % 256)
        (my_aio_write true store_aio_write (fun a => a % 256) [1, 2] [⟨16, 2⟩, ⟨32, 3⟩] 4).file
        [⟨64, 5⟩] 4).mem [⟨64, 5⟩]
      = gather (fun a => a % 256) [⟨16, 2⟩, ⟨32, 3⟩]) :=
  ⟨byteMem_mod, fun _ => by simp [Disjoint_segs, seg_disjoint], by simp [Disjoint_segs],
    by decide,
    write_read_roundtrip true (fun a => a % 256) byteMem_mod [1, 2] [⟨16, 2⟩, ⟨32, 3⟩]
      (fun _ => by simp [Disjoint_segs, seg_disjoint]) 4 (fun a => a % 256) byteMem_mod [⟨64, 5⟩]
      (by simp [Disjoint_segs]) (by decide)⟩

/-- C2 fails as stated in two ways. At the empty byte sequence, a zero-length
write with the flag set followed by a zero-length read with the flag clear
returns the byte sequence that was written, not something different from it.
When segments of one call overlap, what comes back is not `apply b`: writing
`b = [4, 5, 5, 6]` from the segments `(4, 2)` and `(5, 2)` XORs the shared byte
twice, so the read delivers `[33, 5, 5, 35]` while `apply b` is
`[33, 32, 32, 35]`; and reading `apply [4, 5] = [33, 32]` into the overlapping
segments `(8, 1)` and `(8, 1)` leaves `[32, 32]` in them. -/
theorem write_on_read_off_fails :
    ¬ (gather (my_aio_read false store_aio_read (fun _ => 0)
          (my_aio_write true store_aio_write (fun _ => 0) [] [⟨0, 0⟩] 0).file [⟨0, 0⟩] 0).mem
          [⟨0, 0⟩]
        = apply (gather (fun _ => 0) [⟨0, 0⟩]) ∧
      gather (my_aio_read false store_aio_read (fun _ => 0)
          (my_aio_write true store_aio_write (fun _ => 0) [] [⟨0, 0⟩] 0).file [⟨0, 0⟩] 0).mem
          [⟨0, 0⟩]
        ≠ gather (fun _ => 0) [⟨0, 0⟩]) ∧
    gather (my_aio_read false store_aio_read (fun a => a % 256)
        (my_aio_write true store_aio_write (fun a => a % 256) [] [⟨4, 2⟩, ⟨5, 2⟩] 0).file
        [⟨16, 4⟩] 0).mem [⟨16, 4⟩]
      = [33, 5, 5, 35] ∧
    apply (gather (fun a => a % 256) [⟨4, 2⟩, ⟨5, 2⟩]) = [33, 32, 32, 35] ∧
    gather (my_aio_read false store_aio_read (fun a => a % 256)
        (my_aio_write true store_aio_write (fun a => a % 256) [] [⟨4, 2⟩, ⟨5, 2⟩] 0).file
        [⟨16, 4⟩] 0).mem [⟨16, 4⟩]
      ≠ apply (gather (fun a => a % 256) [⟨4, 2⟩, ⟨5, 2⟩]) ∧
    gather (my_aio_read false store_aio_read (fun a => a % 256)
        (my_aio_write true store_aio_write (fun a => a % 256) [] [⟨4, 2⟩] 0).file
        [⟨8, 1⟩, ⟨8, 1⟩] 0).mem [⟨8, 1⟩, ⟨8, 1⟩]
      = [32, 32] ∧
    apply (gather (fun a => a % 256) [⟨4, 2⟩]) = [33, 32] := by
  refine ⟨fun h => h.2 rfl, by decide, by decide, by decide, by decide, by decide⟩

/-- C2 (amended): for every byte sequence `b` held in segments that do not
overlap one another, a `my_aio_write` with the flag set followed by a
`my_aio_read` of the same byte range with the flag clear, into segments that do
not overlap one another, delivers `apply b`, the sequence whose i-th byte is
`b[i]` XOR 0x25 for every i, and for every non-empty `b` this differs from
`b`. -/
theorem write_on_read_off (m : Mem) (hm : ByteMem m) (file : List Nat)
    (iov_w : List iovec) (hdw : Disjoint_segs iov_w) (pos : Nat)
    (m2 : Mem) (iov_r : List iovec) (hdr : Disjoint_segs iov_r)
    (hlen : total_len iov_r = total_len iov_w) :
    gather (my_aio_read false store_aio_read m2
        (my_aio_write true store_aio_write m file iov_w pos).file iov_r pos).mem iov_r
      = apply (gather m iov_w) ∧
    (∀ i, ∀ h : i < (gather m iov_w).length,
      (gather (my_aio_read false store_aio_read m2
        (my_aio_write true store_aio_write m file iov_w pos).file iov_r pos).mem iov_r)[i]?
      = some ((gather m iov_w)[i] ^^^ 0x25)) ∧
    (gather m iov_w ≠ [] →
      gather (my_aio_read false store_aio_read m2
        (my_aio_write true store_aio_write m file iov_w pos).file iov_r pos).mem iov_r
      ≠ gather m iov_w) := by
  have hg : gather (xor_loop m iov_w) iov_w = apply (gather m iov_w) :=
    gather_xor_loop m hm iov_w hdw
  have hl : total_len iov_r = (apply (gather m iov_w)).length := by
    rw [← hg, length_gather, hlen]
  have key : gather (my_aio_read false store_aio_read m2
        (my_aio_write true store_aio_write m file iov_w pos).file iov_r pos).mem iov_r
      = apply (gather m iov_w) := by
    simp only [my_aio_write, my_aio_read, store_aio_write, if_true, hg, Bool.false_eq_true,
      if_false]
    rw [store_read_after_write m2 file pos _ iov_r hl]
    exact gather_scatter iov_r hdr m2 _ hl.symm
  refine ⟨key, ?_, ?_⟩
  · intro i h
    rw [key]
    simp [apply, h]
  · intro hne
    rw [key]
    exact apply_ne _ hne

theorem write_on_read_off_witness :
    ByteMem (fun a => a % 256) ∧ Disjoint_segs [⟨16, 3⟩] ∧ Disjoint_segs [⟨64, 3⟩] ∧
    total_len [⟨64, 3⟩] = total_len [⟨16, 3⟩] ∧
    gather (my_aio_read false store_aio_read (fun _ => 0)
        (my_aio_write true store_aio_write (fun a => a % 256) [] [⟨16, 3⟩] 0).file
        [⟨64, 3⟩] 0).mem [⟨64, 3⟩]
      = [53, 52, 55] :=
  ⟨byteMem_mod, by simp [Disjoint_segs], by simp [Disjoint_segs], by decide,
    (write_on_read_off (fun a => a % 256) byteMem_mod [] [⟨16, 3⟩] (by simp [Disjoint_segs]) 0
      (fun _ => 0) [⟨64, 3⟩] (by simp [Disjoint_segs]) (by decide)).1⟩

/-- C3: the XOR loop of `my_aio_write` / `my_aio_read`, with its int-wide
access at every byte offset, is self-inverse: run twice over any list of
segments (any number, any lengths, overlapping or not) it leaves every byte of
memory, inside and outside the segments, at its original value; on byte
sequences, `apply (apply b) = b`. -/
theorem xor_loop_self_inverse (m : Mem) (hm : ByteMem m) (iov : List iovec) :
    xor_loop (xor_loop m iov) iov = m ∧
    gather (xor_loop (xor_loop m iov) iov) iov = gather m iov ∧
    apply (apply (gather m iov)) = gather m iov := by
  have key : xor_loop (xor_loop m iov) iov = m := by
    funext x
    rw [xor_loop_eq iov _ (byteMem_xor_loop iov m hm) x, xor_loop_eq iov m hm x]
    by_cases hc : cover iov x % 2 = 1
    · simp only [hc, if_true]
      exact Nat.xor_cancel_right _ _
    · simp only [hc, if_false]
  exact ⟨key, by rw [key], apply_apply _⟩

theorem xor_loop_self_inverse_witness :
    ByteMem (fun a => a % 256) ∧
    xor_loop (xor_loop (fun a => a % 256) [⟨3, 5⟩, ⟨4, 0⟩, ⟨6, 9⟩]) [⟨3, 5⟩, ⟨4, 0⟩, ⟨6, 9⟩]
      = (fun a => a % 256) :=
  ⟨byteMem_mod,
    (xor_loop_self_inverse (fun a => a % 256) byteMem_mod [⟨3, 5⟩, ⟨4, 0⟩, ⟨6, 9⟩]).1⟩

/-- C6 fails as stated: with the flag set, a one-byte write changes the
caller's byte at address 0 from 0 to 0x25. -/
theorem my_aio_write_changes_caller_buffer :
    (my_aio_write true store_aio_write (fun _ => 0) [] [⟨0, 1⟩] 0).mem 0 = 0x25 ∧
    (my_aio_write true store_aio_write (fun _ => 0) [] [⟨0, 1⟩] 0).mem 0
      ≠ (fun _ => 0 : Mem) 0 := by
  decide

/-- C6 (amended): `my_aio_write` transforms the caller's bytes in place, not a
copy. With the flag clear the caller's memory is unchanged. With the flag set
every byte outside the segments is unchanged and, for non-overlapping segments,
every byte inside a segment holds its former value XOR 0x25 after the call.
This holds whatever the generic write does with the file. -/
theorem my_aio_write_caller_buffer
    (generic_file_aio_write : Mem → List Nat → List iovec → Nat → List Nat × Int)
    (m : Mem) (hm : ByteMem m) (file : List Nat) (iov : List iovec) (pos : Nat) :
    (my_aio_write false generic_file_aio_write m file iov pos).mem = m ∧
    (∀ x, (∀ s ∈ iov, ¬ in_segment s x) →
      (my_aio_write true generic_file_aio_write m file iov pos).mem x = m x) ∧
    (Disjoint_segs iov → ∀ s ∈ iov, ∀ x, in_segment s x →
      (my_aio_write true generic_file_aio_write m file iov pos).mem x = m x ^^^ 0x25) := by
  refine ⟨rfl, ?_, ?_⟩
  · intro x hx
    simp only [my_aio_write, if_true]
    rw [xor_loop_eq iov m hm x, cover_eq_zero iov x hx]
    simp
  · intro hd s hs x hx
    simp only [my_aio_write, if_true]
    rw [xor_loop_eq iov m hm x, cover_eq_one iov hd s hs x hx]
    simp

theorem my_aio_write_caller_buffer_witness :
    ByteMem (fun a => a % 256) ∧
    (my_aio_write true store_aio_write (fun a => a % 256) [] [⟨8, 2⟩] 0).mem 9 = 9 ^^^ 0x25 :=
  ⟨byteMem_mod,
    (my_aio_write_caller_buffer store_aio_write (fun a => a % 256) byteMem_mod [] [⟨8, 2⟩] 0).2.2
      (by simp [Disjoint_segs]) ⟨8, 2⟩ (List.mem_cons_self _ _) 9 (by decide)⟩

theorem strncmp_one (s : List Nat) : (strncmp s [49] 1 == 0) = (s.headD 0 == 49) := by
  unfold strncmp
  simp only [List.headD_cons]
  generalize s.headD 0 = c
  by_cases h : c = 49
  · subst h
    simp [strncmp]
  · have hne : (c : Int) - 49 ≠ 0 := by omega
    simp [h, hne]

theorem headD_user_copy (dst : List Nat) (c : Nat) (rest : List Nat) (k : Nat) :
    (user_copy dst (c :: rest) (k + 1)).1.headD 0 = c := by
  simp [user_copy]

/-- For a non-empty payload `my_write_proc` returns the clipped count and sets
the flag exactly when the payload begins with the character `1`. -/
theorem my_write_proc_nonempty (st : proc_state) (c : Nat) (rest : List Nat) :
    (my_write_proc user_copy st (c :: rest)).1.enable_encryption = (c == 49) ∧
    (my_write_proc user_copy st (c :: rest)).2 = ((min (rest.length + 1) 32 : Nat) : Int) := by
  have hcount : ∃ k, (if (c :: rest).length > MAX_BUF_SIZE then MAX_BUF_SIZE
      else (c :: rest).length) = k + 1 ∧ k + 1 = min (rest.length + 1) 32 := by
    by_cases h : (c :: rest).length > MAX_BUF_SIZE
    · refine ⟨31, by rw [if_pos h]; rfl, ?_⟩
      simp only [List.length_cons, MAX_BUF_SIZE] at h
      omega
    · refine ⟨rest.length, by rw [if_neg h]; rfl, ?_⟩
      simp only [List.length_cons, MAX_BUF_SIZE] at h
      omega
  obtain ⟨k, hk, hmin⟩ := hcount
  have h0 : (user_copy st.ram_buf (c :: rest) (k + 1)).2 = 0 := rfl
  unfold my_write_proc
  simp only [hk, h0, ne_eq, not_true_eq_false, if_false, strncmp_one, headD_user_copy]
  exact ⟨trivial, by rw [hmin]⟩

/-- C4, evaluation at the failing input: after the payload `"1"`, the empty
payload is accepted (return value 0) and leaves the flag set, although the
empty payload does not begin with `1`. -/
theorem my_write_proc_empty_keeps_flag :
    (my_write_proc user_copy proc_start [49]).1.enable_encryption = true ∧
    (my_write_proc user_copy (my_write_proc user_copy proc_start [49]).1 []).2 = 0 ∧
    (my_write_proc user_copy (my_write_proc user_copy proc_start [49]).1 []).1.enable_encryption
      = true := by
  decide

/-- C5, evaluation at the failing input: after the payloads `"hello"` and then
`"1"`, the query reports `"1ello\n"`: the last payload followed by the tail
of the earlier one (and a newline), not the last payload `"1"`. -/
theorem my_read_proc_stale_tail :
    (my_read_proc [] (write_all proc_start [[104, 101, 108, 108, 111], [49]])).1
      = [49, 101, 108, 108, 111, 10] ∧
    (my_read_proc [] (write_all proc_start [[49]])).1 = [49, 10] ∧
    (my_read_proc [] (write_all proc_start [[104, 101, 108, 108, 111], [49]])).1
      ≠ (my_read_proc [] (write_all proc_start [[49]])).1 := by
  decide

/-! ## Theorems: mount options of `lab10/inode.c` -/

theorem parse_items_no_mode (match_token : List Char → token × List Char)
    (match_octal : List Char → Option Nat)
    (hmt : ∀ p, (match_token p).1 = token.Opt_mode → begins_mode_eq p = true)
    (items : List (List Char)) (opts : ramfs_mount_opts)
    (hitems : ∀ p ∈ items, begins_mode_eq p = false) :
    parse_items match_token match_octal items opts = (0, opts) := by
  induction items with
  | nil => rfl
  | cons p rest ih =>
    have hrest : ∀ q ∈ rest, begins_mode_eq q = false :=
      fun q hq => hitems q (List.mem_cons_of_mem _ hq)
    have hp : begins_mode_eq p = false := hitems p (List.mem_cons_self _ _)
    unfold parse_items
    by_cases hnil : p = []
    · simp only [hnil, if_true]
      exact ih hrest
    · simp only [hnil, if_false]
      cases htok : (match_token p).1 with
      | Opt_mode =>
        have := hmt p htok
        rw [hp] at this
        exact absurd this (by decide)
      | Opt_err => exact ih hrest

theorem mode_token_spec (p : List Char) (h : (mode_token p).1 = token.Opt_mode) :
    begins_mode_eq p = true := by
  unfold mode_token at h
  split at h
  · rfl
  · exact absurd h (by decide)

/-- C8: for every mount option string none of whose comma-separated items
begins with `mode=` (and for a missing option string), with any `match_token`
that reports `Opt_mode` only for items beginning with `mode=`,
`ramfs_parse_options` returns 0 and leaves the mode at the default 0755. -/
theorem ramfs_parse_options_default (match_token : List Char → token × List Char)
    (match_octal : List Char → Option Nat)
    (hmt : ∀ p, (match_token p).1 = token.Opt_mode → begins_mode_eq p = true)
    (data : Option (List Char))
    (hdata : ∀ p ∈ strsep_tokens data, begins_mode_eq p = false) :
    ramfs_parse_options match_token match_octal data = (0, { mode := 0o755 }) := by
  unfold ramfs_parse_options
  exact parse_items_no_mode match_token match_octal hmt _ _ hdata

theorem ramfs_parse_options_default_witness :
    (∀ p, (mode_token p).1 = token.Opt_mode → begins_mode_eq p = true) ∧
    (∀ p ∈ strsep_tokens (some ['r', 'w', ',', ',', 'm', 'o', 'd', 'e', ',', 'x', '=', '1', ',']),
      begins_mode_eq p = false) ∧
    ramfs_parse_options mode_token octal_value
        (some ['r', 'w', ',', ',', 'm', 'o', 'd', 'e', ',', 'x', '=', '1', ','])
      = (0, { mode := 0o755 }) :=
  ⟨mode_token_spec, by decide,
    ramfs_parse_options_default mode_token octal_value mode_token_spec _ (by decide)⟩

/-! ## Theorems: inode creation of `lab10/inode.c` -/

theorem read_loop_unfold :
    read_loop 0 true = ascending_round 0 ++ (other_round 4 ++ (ascending_round 8 ++
      (other_round 12 ++ (ascending_round 16 ++ other_round 20)))) := by
  rw [read_loop]; simp only [Nat.reduceLT, if_true, Nat.reduceAdd]
  rw [read_loop]; simp only [Nat.reduceLT, if_true, Nat.reduceAdd, Bool.false_eq_true, if_false]
  rw [read_loop]; simp only [Nat.reduceLT, if_true, Nat.reduceAdd]
  rw [read_loop]; simp only [Nat.reduceLT, if_true, Nat.reduceAdd, Bool.false_eq_true, if_false]
  rw [read_loop]; simp only [Nat.reduceLT, if_true, Nat.reduceAdd]
  rw [read_loop]; simp only [Nat.reduceLT, if_true, Nat.reduceAdd, Bool.false_eq_true, if_false]
  rw [read_loop]; simp

theorem init_read_value :
    init_read false 0 = (0, ascending_round 0 ++ (other_round 4 ++ (ascending_round 8 ++
      (other_round 12 ++ (ascending_round 16 ++ other_round 20))))) := by
  unfold init_read
  rw [read_loop_unfold]
  rfl

/-- C10 fails as stated: the four blocks of the first round are not
`base + {0, 1, 2, 3} x 2 x 512` for any base, and the four blocks of the
second round are not strictly decreasing. -/
theorem init_read_not_zigzag :
    ¬ (∃ base : Int, ((init_read false 0).2.take 4).map breadahead.block
        = [base + 0 * 2 * 512, base + 1 * 2 * 512, base + 2 * 2 * 512, base + 3 * 2 * 512]) ∧
    ¬ List.Pairwise (fun a b : Int => b < a)
        ((((init_read false 0).2.drop 4).take 4).map breadahead.block) := by
  rw [init_read_value]
  constructor
  · rintro ⟨base, h⟩
    simp [ascending_round] at h
    omega
  · decide

/-- C10 (amended): when the device opens and the block size is set,
`init_read` returns 0 after exactly 24 calls of `__breadahead`, each of size
512, in 6 rounds of 4 that alternate between the two branches, beginning with
the ascending one. A round of the ascending branch at loop index `i`
(0, 8, 16) asks for the blocks `2i x 512 + {0, 1, 2} x 2 x 512` and then
`(4i + 12) x 512`, strictly increasing. A round of the other branch at loop
index `i` (4, 12, 20) asks for `(2i + 5) x 512`, `(2i + 3) x 512`,
`(2i + 1) x 512`, strictly decreasing, and then `(4i - 1) x 512`, which is
above all three. -/
theorem init_read_calls :
    init_read false 0 = (0, ascending_round 0 ++ (other_round 4 ++ (ascending_round 8 ++
      (other_round 12 ++ (ascending_round 16 ++ other_round 20))))) ∧
    (init_read false 0).2.length = 24 ∧
    (init_read false 0).2.map breadahead.size = List.replicate 24 512 ∧
    (init_read false 0).2.map breadahead.block
      = [0, 1024, 2048, 6144] ++ [6656, 5632, 4608, 7680] ++
        [8192, 9216, 10240, 22528] ++ [14848, 13824, 12800, 24064] ++
        [16384, 17408, 18432, 38912] ++ [23040, 22016, 20992, 40448] ∧
    (∀ i : Int, (ascending_round i).map breadahead.block
        = [2 * i * 512, 2 * i * 512 + 1 * 2 * 512, 2 * i * 512 + 2 * 2 * 512,
           (4 * i + 12) * 512]) ∧
    (∀ i : Int, (other_round i).map breadahead.block
        = [(2 * i + 5) * 512, (2 * i + 3) * 512, (2 * i + 1) * 512, (4 * i - 1) * 512]) ∧
    (∀ l ∈ [ascending_round 0, ascending_round 8, ascending_round 16],
      List.Pairwise (fun a b : Int => a < b) (l.map breadahead.block)) ∧
    (∀ l ∈ [other_round 4, other_round 12, other_round 20],
      List.Pairwise (fun a b : Int => b < a) ((l.take 3).map breadahead.block) ∧
      ∀ a ∈ (l.take 3).map breadahead.block, ∀ b ∈ (l.drop 3).map breadahead.block, a < b) := by
  refine ⟨init_read_value, ?_, ?_, ?_, ?_, ?_, by decide, by decide⟩
  · rw [init_read_value]; decide
  · rw [init_read_value]; decide
  · rw [init_read_value]; decide
  · intro i
    simp only [ascending_round, List.map_cons, List.map_nil, List.cons.injEq, and_true]
    refine ⟨by ring, by ring, by ring, by ring⟩
  · intro i
    simp only [other_round, List.map_cons, List.map_nil, List.cons.injEq, and_true]
    refine ⟨by ring, by ring, by ring, by ring⟩

end OSDI
